import Mathlib

/-!
Shallow embedding of the Project/Timeline orchestration core of the
`ai-video-editor` desktop shell (`src/src-tauri/src/main.rs`).

Machine integers: `u64`/`u32` quantities are modelled as `Nat`.  All
reachable arithmetic in the embedded code stays within machine range
(range endpoints are clamped to `duration_us`, and the timeline cursor is
bounded by `duration_us`), except for the `u32` version counter, where the
source explicitly uses `saturating_add`; that saturation is modelled
explicitly with `min _ u32Max`.

Nondeterministic inputs of the source (wall-clock timestamps from
`now_iso`, fresh ids from `generate_project_id`, subprocess results,
file contents) are passed to the embedded functions as explicit
arguments, and file writes are returned as explicit values.
-/

/-- Model of `TimeRange` (`main.rs:163`): half-open `[startUs, endUs)` in microseconds. -/
structure TimeRange where
  start_us : Nat
  end_us : Nat
deriving DecidableEq, Repr

/-- Clamping step of `normalize_ranges` (`main.rs:357-360`):
`start_us.min(duration_us)`, `end_us.min(duration_us)`. -/
def clampRange (duration_us : Nat) (r : TimeRange) : TimeRange :=
  { start_us := min r.start_us duration_us, end_us := min r.end_us duration_us }

/-- Inner merge loop of `normalize_ranges` (`main.rs:367-377`) rendered
recursively: `cur` is the last element of the `merged` vector (the one the
loop mutates through `last_mut`); a range whose start is `<=` the current
last end is absorbed (its end extending the last end when larger),
otherwise the current last is emitted and the range opens a new one. -/
def mergeGo (cur : TimeRange) : List TimeRange → List TimeRange
  | [] => [cur]
  | r :: rs =>
    if r.start_us ≤ cur.end_us then
      mergeGo { start_us := cur.start_us,
                end_us := if cur.end_us < r.end_us then r.end_us else cur.end_us } rs
    else
      cur :: mergeGo r rs

/-- The full merge pass over the sorted list (`main.rs:365-377`). -/
def mergeRanges : List TimeRange → List TimeRange
  | [] => []
  | r :: rs => mergeGo r rs

/-- The sort key order of `normalize_ranges` (`main.rs:364`):
`sort_by_key(|range| range.start_us)`. -/
def startLE (a b : TimeRange) : Prop :=
  a.start_us ≤ b.start_us

instance : DecidableRel startLE := fun a b => Nat.decLe a.start_us b.start_us

instance : IsTotal TimeRange startLE := ⟨fun a b => Nat.le_total a.start_us b.start_us⟩

instance : IsTrans TimeRange startLE := ⟨fun _ _ _ => Nat.le_trans⟩

/-- Model of `normalize_ranges` (`main.rs:354-380`): clamp every range to
`[0, duration_us]`, drop empty ranges, sort by `start_us` (Rust
`sort_by_key` is a stable sort; modelled by the stable
`List.insertionSort`, which computes the same list, since a stable sort
by a total preorder is unique), then merge touching or overlapping
ranges. -/
def normalize_ranges (ranges : List TimeRange) (duration_us : Nat) : List TimeRange :=
  let normalized :=
    (ranges.map (clampRange duration_us)).filter (fun r => decide (r.start_us < r.end_us))
  mergeRanges (normalized.insertionSort startLE)

/-- Loop body of `invert_ranges` (`main.rs:387-405`): walk the remove
list with a cursor, emitting `[cursor, removeStart)` whenever the next
remove range starts past the cursor, advancing the cursor to
`removeEnd.max(cursor)`, and finally emitting `[cursor, duration_us)`
when the cursor ends short of the duration. -/
def invertGo (duration_us : Nat) (cursor : Nat) : List TimeRange → List TimeRange
  | [] => if cursor < duration_us then [{ start_us := cursor, end_us := duration_us }] else []
  | r :: rs =>
    (if cursor < r.start_us then [{ start_us := cursor, end_us := r.start_us }] else []) ++
      invertGo duration_us (max r.end_us cursor) rs

/-- Model of `invert_ranges` (`main.rs:382-408`). -/
def invert_ranges (remove_ranges : List TimeRange) (duration_us : Nat) : List TimeRange :=
  if duration_us = 0 then [] else invertGo duration_us 0 remove_ranges

/-- Model of `TimelineTrack` (`main.rs:170`). -/
structure TimelineTrack where
  id : String
  name : String
  kind : String
  order : Nat
  locked : Bool
deriving DecidableEq, Repr

/-- The provenance `meta` object stamped on generated clips
(`main.rs:454-457`): `serde_json::json!` object with fields
`generatedBy` and `removeRangesApplied`. -/
structure ClipMeta where
  generatedBy : String
  removeRangesApplied : List TimeRange
deriving DecidableEq, Repr

/-- Model of `TimelineClip` (`main.rs:180`).  The `effects` and `transform`
fields are always set to the empty JSON object by
`build_rough_cut_timeline` and are never interpreted by this core, so
they are omitted; `meta` is kept because the synthesizer stamps
provenance into it. -/
structure TimelineClip where
  clip_id : String
  track_id : String
  clip_type : String
  start_us : Nat
  end_us : Nat
  source_start_us : Nat
  source_end_us : Nat
  source_ref : String
  meta : ClipMeta
deriving DecidableEq, Repr

/-- Model of `Timeline` (`main.rs:196`). -/
structure Timeline where
  id : String
  project_id : String
  version : Nat
  status : String
  fps : Nat
  duration_us : Nat
  created_at : String
  updated_at : String
  tracks : List TimelineTrack
  clips : List TimelineClip
deriving DecidableEq, Repr

/-- Clip-building loop of `build_rough_cut_timeline` (`main.rs:435-461`):
for each keep range, emit one clip of the keep range's length at the
timeline cursor and advance the cursor.  Returns the clip list together
with the final cursor (which becomes the timeline's `duration_us`). -/
def buildClipsGo (source_ref : String) (remove : List TimeRange) (track_id : String) :
    Nat → Nat → List TimeRange → List TimelineClip × Nat
  | _, cursor, [] => ([], cursor)
  | index, cursor, keep :: rest =>
    let clip_duration := keep.end_us - keep.start_us
    let result := buildClipsGo source_ref remove track_id (index + 1) (cursor + clip_duration) rest
    ({ clip_id := "clip-" ++ toString (index + 1)
       track_id := track_id
       clip_type := "source_clip"
       start_us := cursor
       end_us := cursor + clip_duration
       source_start_us := keep.start_us
       source_end_us := keep.end_us
       source_ref := source_ref
       meta := { generatedBy := "ai-rough-cut", removeRangesApplied := remove } } :: result.1,
     result.2)

/-- Model of `build_rough_cut_timeline` (`main.rs:410-476`).  Here `timeline_id` and
`now` stand for the time-derived fresh id (`main.rs:465`) and the
`now_iso()` timestamp, passed in explicitly. -/
def build_rough_cut_timeline (project_id : String) (duration_us : Nat) (fps : Nat)
    (source_ref : String) (remove_ranges : List TimeRange)
    (timeline_id : String) (now : String) : Timeline :=
  let remove := normalize_ranges remove_ranges duration_us
  let keep := invert_ranges remove duration_us
  let video_track : TimelineTrack :=
    { id := "track-video-main", name := "Main Video", kind := "video", order := 0, locked := false }
  let captions_track : TimelineTrack :=
    { id := "track-captions", name := "Captions", kind := "caption", order := 1, locked := false }
  let built := buildClipsGo source_ref remove video_track.id 0 0 keep
  { id := timeline_id
    project_id := project_id
    version := 1
    status := "ROUGH_CUT_READY"
    fps := max fps 1
    duration_us := built.2
    created_at := now
    updated_at := now
    tracks := [video_track, captions_track]
    clips := built.1 }

/-- Value of `u32::MAX`: the saturation bound of the timeline version counter. -/
def u32Max : Nat := 4294967295

/-- Model of `save_timeline` (`main.rs:766-777`): bump `version` with
`saturating_add(1)` (u32 saturation modelled by `min _ u32Max`), stamp
`updated_at` with `now_iso()` (passed as `now`), then write the timeline
file wholesale; the written value is also the returned value. -/
def save_timeline (timeline : Timeline) (now : String) : Timeline :=
  { timeline with version := min (timeline.version + 1) u32Max, updated_at := now }

/-- Model of `ProjectSettings` (`main.rs:115`). -/
structure ProjectSettings where
  aspect_ratio : String
  fps : Nat
  resolution : String
  language : String
  ai_mode : String
  fallback_policy : Option String
  transcription_model : Option String
  cut_planner_model : Option String
  template_planner_model : Option String
deriving DecidableEq, Repr

/-- Model of `Project` (`main.rs:129`). -/
structure Project where
  id : String
  name : String
  settings : ProjectSettings
  status : String
  created_at : String
  updated_at : String
deriving DecidableEq, Repr

/-- Loop of `update_project_status` (`main.rs:321-328`): mutate the first
record whose `id` matches (then `break`); `none` when no record matches. -/
def setStatusGo (project_id status now : String) : List Project → Option (List Project)
  | [] => none
  | p :: ps =>
    if p.id = project_id then
      some ({ p with status := status, updated_at := now } :: ps)
    else
      (setStatusGo project_id status now ps).map (p :: ·)

/-- Model of `update_project_status` (`main.rs:317-333`): read the store, set the
first matching record's status and `updated_at`, fail when no record
matches (before any write), else write the whole collection back.  The
store file's parsed content is passed in as `projects` and the written
content is the `Except.ok` payload. -/
def update_project_status (projects : List Project) (project_id status now : String) :
    Except String (List Project) :=
  match setStatusGo project_id status now projects with
  | some written => Except.ok written
  | none => Except.error "Project not found."

/-- Loop of `update_project_settings` (`main.rs:614-622`): replace the
settings wholesale, stamp `updated_at`, overwrite `status` with
`SETTINGS_SAVED` on the first record whose `id` matches (then `break`);
returns the updated record (the source's `found` clone) and the mutated
collection. -/
def updateSettingsGo (project_id : String) (settings : ProjectSettings) (now : String) :
    List Project → Option (Project × List Project)
  | [] => none
  | p :: ps =>
    if p.id = project_id then
      let p' := { p with settings := settings, updated_at := now, status := "SETTINGS_SAVED" }
      some (p', p' :: ps)
    else
      (updateSettingsGo project_id settings now ps).map (fun r => (r.1, p :: r.2))

/-- Model of `update_project_settings` (`main.rs:607-630`): on a match, write the
mutated collection (second component `some written`) and return the
updated record; when no record matches, return the `Project not found.`
error before any write is performed (second component `none`: the store
file keeps its previous bytes). -/
def update_project_settings (projects : List Project) (project_id : String)
    (settings : ProjectSettings) (now : String) :
    Except String Project × Option (List Project) :=
  match updateSettingsGo project_id settings now projects with
  | some (p, written) => (Except.ok p, some written)
  | none => (Except.error "Project not found.", none)

/-- The observable outcome of one collaborator subprocess
(`std::process::Output`): exit status success flag plus captured
standard output and standard error.  Lean strings are already unicode,
so the source's UTF-8 decoding step cannot fail in the model. -/
structure ProcOutput where
  success : Bool
  stdout : String
  stderr : String

/-- Rust `str::trim` modelled at character level (drop whitespace from both
ends); structural so that concrete instances evaluate in the kernel. -/
def trimChars (cs : List Char) : List Char :=
  ((cs.dropWhile Char.isWhitespace).reverse.dropWhile Char.isWhitespace).reverse

/-- String-level wrapper of `trimChars`. -/
def strTrim (s : String) : String :=
  String.mk (trimChars s.data)

/-- Model of `run_node_script` (`main.rs:20-41`): on exit success return the
trimmed standard output; otherwise fail with the trimmed standard error,
verbatim. -/
def run_node_script (output : ProcOutput) : Except String String :=
  if output.success then Except.ok (strTrim output.stdout)
  else Except.error (strTrim output.stderr)

/-- Model of `render_video` (`main.rs:919-982`): set status `RENDER_IN_PROGRESS`
before invoking the render collaborator; on collaborator failure set
status `RENDER_FAILED` and re-raise the collaborator's error unchanged;
on success parse the stdout document (`parse` stands for
`serde_json::from_str`, its error text wrapped exactly as the source
wraps it) and set status `RENDER_DONE`.  Returns the command result
together with the final persisted projects store. -/
def render_video {V : Type} (projects : List Project) (project_id : String)
    (output : ProcOutput) (parse : String → Except String V) (nowStart nowEnd : String) :
    Except String V × List Project :=
  match update_project_status projects project_id "RENDER_IN_PROGRESS" nowStart with
  | Except.error e => (Except.error e, projects)
  | Except.ok inProgress =>
    match run_node_script output with
    | Except.error e =>
      match update_project_status inProgress project_id "RENDER_FAILED" nowEnd with
      | Except.error e2 => (Except.error e2, inProgress)
      | Except.ok failed => (Except.error e, failed)
    | Except.ok raw =>
      match parse raw with
      | Except.error e => (Except.error ("Invalid render JSON: " ++ e), inProgress)
      | Except.ok value =>
        match update_project_status inProgress project_id "RENDER_DONE" nowEnd with
        | Except.error e2 => (Except.error e2, inProgress)
        | Except.ok done => (Except.ok value, done)

/-- Rust `str::lines` modelled at character level: split on newline
characters. -/
def splitLinesAux : List Char → List Char → List (List Char)
  | [], acc => [acc.reverse]
  | c :: cs, acc =>
    if c = '\n' then acc.reverse :: splitLinesAux cs []
    else splitLinesAux cs (c :: acc)

/-- The row extraction of `get_project_telemetry` (`main.rs:740-744`):
`raw.lines().map(str::trim).filter(|line| !line.is_empty())`.  A
trailing-newline empty segment and any carriage returns are removed by
the trim/filter pair exactly as in the source. -/
def nonBlankLines (raw : String) : List String :=
  ((splitLinesAux raw.data []).map (fun cs => String.mk (trimChars cs))).filter
    (fun l => decide (l ≠ ""))

/-- The limit clamp of `get_project_telemetry` (`main.rs:724`):
`request.limit.unwrap_or(80).max(1).min(400)`. -/
def effective_limit (limit : Option Nat) : Nat :=
  min (max (limit.getD 80) 1) 400

/-- The event collection loop of `get_project_telemetry`
(`main.rs:745-750`): walk the last `limit` non-blank lines newest first
and keep those that parse, silently skipping failures.  `parse` stands
for `serde_json::from_str::<Value>`. -/
def recent_events {J : Type} (parse : String → Option J) (raw : String) (limit : Nat) :
    List J :=
  (((nonBlankLines raw).reverse).take limit).filterMap parse

/-- Result `recentEvents` as computed by the `get_project_telemetry` command for
an existing events file with content `raw` and request limit `limit`
(`main.rs:721-764`). -/
def get_project_telemetry_recent {J : Type} (parse : String → Option J) (raw : String)
    (limit : Option Nat) : List J :=
  recent_events parse raw (effective_limit limit)

/-- Digit-only line parser used to instantiate the abstract structured
parser on concrete witness logs. -/
def parseNatLine (s : String) : Option Nat :=
  if s.data ≠ [] ∧ s.data.all Char.isDigit then
    some (s.data.foldl (fun n c => n * 10 + (c.toNat - 48)) 0)
  else none

/-- Total covered duration of a list of ranges: the sum of `endUs - startUs`. -/
def sumLen (l : List TimeRange) : Nat :=
  (l.map (fun r => r.end_us - r.start_us)).sum

/-- Concrete settings value used to build concrete store instances. -/
def sampleSettings : ProjectSettings :=
  { aspect_ratio := "16:9", fps := 30, resolution := "1080p", language := "en",
    ai_mode := "auto", fallback_policy := none, transcription_model := none,
    cut_planner_model := none, template_planner_model := none }

/-- Concrete project record used to build concrete store instances. -/
def sampleProject : Project :=
  { id := "p", name := "demo", settings := sampleSettings,
    status := "ROUGH_CUT_READY", created_at := "c", updated_at := "u" }

/-- A second concrete project record with a different id. -/
def sampleProject2 : Project :=
  { id := "q", name := "demo2", settings := sampleSettings,
    status := "PROJECT_CREATED", created_at := "c2", updated_at := "u2" }


/-! ## Properties of the clip-building loop -/

theorem buildClipsGo_head (src : String) (rem : List TimeRange) (tid : String) :
    ∀ (keeps : List TimeRange) (idx cursor : Nat) (c : TimelineClip),
      ((buildClipsGo src rem tid idx cursor keeps).1).head? = some c → c.start_us = cursor := by
  intro keeps idx cursor c h
  cases keeps with
  | nil => simp [buildClipsGo] at h
  | cons keep rest =>
    simp only [buildClipsGo, List.head?] at h
    cases h
    rfl

theorem buildClipsGo_chain (src : String) (rem : List TimeRange) (tid : String) :
    ∀ (keeps : List TimeRange) (idx cursor : Nat),
      List.Chain' (fun a b => b.start_us = a.end_us) (buildClipsGo src rem tid idx cursor keeps).1 := by
  intro keeps
  induction keeps with
  | nil => intro idx cursor; simp [buildClipsGo]
  | cons keep rest ih =>
    intro idx cursor
    simp only [buildClipsGo]
    rw [List.chain'_cons']
    refine ⟨?_, ih (idx + 1) (cursor + (keep.end_us - keep.start_us))⟩
    intro y hy
    have := buildClipsGo_head src rem tid rest (idx + 1)
      (cursor + (keep.end_us - keep.start_us)) y hy
    simpa using this

theorem buildClipsGo_len (src : String) (rem : List TimeRange) (tid : String) :
    ∀ (keeps : List TimeRange) (idx cursor : Nat) (c : TimelineClip),
      c ∈ (buildClipsGo src rem tid idx cursor keeps).1 →
      c.end_us - c.start_us = c.source_end_us - c.source_start_us := by
  intro keeps
  induction keeps with
  | nil => intro idx cursor c hc; simp [buildClipsGo] at hc
  | cons keep rest ih =>
    intro idx cursor c hc
    simp only [buildClipsGo, List.mem_cons] at hc
    rcases hc with rfl | hc
    · simp
    · exact ih (idx + 1) (cursor + (keep.end_us - keep.start_us)) c hc

theorem buildClipsGo_snd (src : String) (rem : List TimeRange) (tid : String) :
    ∀ (keeps : List TimeRange) (idx cursor : Nat),
      (buildClipsGo src rem tid idx cursor keeps).2 =
        (((buildClipsGo src rem tid idx cursor keeps).1.getLast?).map
          (fun c => c.end_us)).getD cursor := by
  intro keeps
  induction keeps with
  | nil => intro idx cursor; simp [buildClipsGo]
  | cons keep rest ih =>
    intro idx cursor
    simp only [buildClipsGo]
    rw [ih (idx + 1) (cursor + (keep.end_us - keep.start_us))]
    cases h : (buildClipsGo src rem tid (idx + 1)
        (cursor + (keep.end_us - keep.start_us)) rest).1 with
    | nil => simp [h]
    | cons x xs =>
      cases hl : (x :: xs).getLast? with
      | none => simp at hl
      | some y => simp [h, hl]

/-- C1: rough-cut synthesis on `durationUs = 10_000_000`, `fps = 30`,
`removeRanges = [[2_000_000, 3_000_000)]` produces exactly the two
expected clips (timeline `[0,2_000_000)` from source `[0,2_000_000)` and
timeline `[2_000_000,9_000_000)` from source `[3_000_000,10_000_000)`)
and a timeline `durationUs` of `9_000_000`. -/
theorem claim1_rough_cut_example (pid src tid now : String) :
    (build_rough_cut_timeline pid 10000000 30 src [⟨2000000, 3000000⟩] tid now).clips =
      [{ clip_id := "clip-1", track_id := "track-video-main", clip_type := "source_clip",
         start_us := 0, end_us := 2000000, source_start_us := 0, source_end_us := 2000000,
         source_ref := src, meta := ⟨"ai-rough-cut", [⟨2000000, 3000000⟩]⟩ },
       { clip_id := "clip-2", track_id := "track-video-main", clip_type := "source_clip",
         start_us := 2000000, end_us := 9000000, source_start_us := 3000000,
         source_end_us := 10000000,
         source_ref := src, meta := ⟨"ai-rough-cut", [⟨2000000, 3000000⟩]⟩ }] ∧
    (build_rough_cut_timeline pid 10000000 30 src [⟨2000000, 3000000⟩] tid now).duration_us =
      9000000 := by
  exact ⟨rfl, rfl⟩

/-- C2: for every input, the synthesized timeline's clips start at 0,
are contiguous (each clip's timeline start equals its predecessor's
timeline end), have timeline length equal to source length, and the
timeline's `durationUs` is the last clip's timeline end (or 0 with no
clips). -/
theorem claim2_timeline_invariants (pid : String) (d fps : Nat) (src : String)
    (removes : List TimeRange) (tid now : String) :
    (∀ c, (build_rough_cut_timeline pid d fps src removes tid now).clips.head? = some c →
      c.start_us = 0) ∧
    List.Chain' (fun a b => b.start_us = a.end_us)
      (build_rough_cut_timeline pid d fps src removes tid now).clips ∧
    (∀ c ∈ (build_rough_cut_timeline pid d fps src removes tid now).clips,
      c.end_us - c.start_us = c.source_end_us - c.source_start_us) ∧
    (build_rough_cut_timeline pid d fps src removes tid now).duration_us =
      ((build_rough_cut_timeline pid d fps src removes tid now).clips.getLast?.map
        (fun c => c.end_us)).getD 0 := by
  refine ⟨?_, ?_, ?_, ?_⟩
  · intro c hc
    exact buildClipsGo_head src (normalize_ranges removes d) "track-video-main"
      (invert_ranges (normalize_ranges removes d) d) 0 0 c hc
  · exact buildClipsGo_chain src (normalize_ranges removes d) "track-video-main"
      (invert_ranges (normalize_ranges removes d) d) 0 0
  · intro c hc
    exact buildClipsGo_len src (normalize_ranges removes d) "track-video-main"
      (invert_ranges (normalize_ranges removes d) d) 0 0 c hc
  · exact buildClipsGo_snd src (normalize_ranges removes d) "track-video-main"
      (invert_ranges (normalize_ranges removes d) d) 0 0

/-! ## Properties of range normalization -/

theorem mergeGo_mem {d : Nat} :
    ∀ (l : List TimeRange) (cur : TimeRange),
      cur.start_us < cur.end_us ∧ cur.end_us ≤ d →
      (∀ x ∈ l, x.start_us < x.end_us ∧ x.end_us ≤ d) →
      ∀ y ∈ mergeGo cur l, y.start_us < y.end_us ∧ y.end_us ≤ d := by
  intro l
  induction l with
  | nil =>
    intro cur hcur _ y hy
    simp only [mergeGo, List.mem_singleton] at hy
    exact hy ▸ hcur
  | cons r rs ih =>
    intro cur hcur hl y hy
    have hr := hl r (List.mem_cons_self r rs)
    have hrs : ∀ x ∈ rs, x.start_us < x.end_us ∧ x.end_us ≤ d :=
      fun x hx => hl x (List.mem_cons_of_mem r hx)
    simp only [mergeGo] at hy
    by_cases hcond : r.start_us ≤ cur.end_us
    · rw [if_pos hcond] at hy
      refine ih _ ⟨?_, ?_⟩ hrs y hy
      · by_cases hlt : cur.end_us < r.end_us <;> simp [hlt] <;> omega
      · by_cases hlt : cur.end_us < r.end_us <;> simp [hlt] <;> omega
    · rw [if_neg hcond] at hy
      rcases List.mem_cons.mp hy with rfl | hy
      · exact hcur
      · exact ih r hr hrs y hy

theorem mergeGo_head :
    ∀ (l : List TimeRange) (cur : TimeRange) (c : TimeRange),
      (mergeGo cur l).head? = some c → c.start_us = cur.start_us := by
  intro l
  induction l with
  | nil =>
    intro cur c h
    simp only [mergeGo, List.head?] at h
    cases h
    rfl
  | cons r rs ih =>
    intro cur c h
    simp only [mergeGo] at h
    by_cases hcond : r.start_us ≤ cur.end_us
    · rw [if_pos hcond] at h
      exact ih { start_us := cur.start_us,
                 end_us := if cur.end_us < r.end_us then r.end_us else cur.end_us } c h
    · rw [if_neg hcond] at h
      simp only [List.head?] at h
      cases h
      rfl

theorem mergeGo_chain :
    ∀ (l : List TimeRange) (cur : TimeRange),
      List.Chain' (fun a b => a.end_us < b.start_us) (mergeGo cur l) := by
  intro l
  induction l with
  | nil => intro cur; simp [mergeGo]
  | cons r rs ih =>
    intro cur
    simp only [mergeGo]
    by_cases hcond : r.start_us ≤ cur.end_us
    · rw [if_pos hcond]
      exact ih _
    · rw [if_neg hcond]
      rw [List.chain'_cons']
      refine ⟨?_, ih r⟩
      intro y hy
      have hstart := mergeGo_head rs r y hy
      omega

theorem mergeGo_of_chain :
    ∀ (l : List TimeRange) (cur : TimeRange),
      List.Chain' (fun a b => a.end_us < b.start_us) (cur :: l) →
      mergeGo cur l = cur :: l := by
  intro l
  induction l with
  | nil => intro cur _; simp [mergeGo]
  | cons r rs ih =>
    intro cur hchain
    rw [List.chain'_cons] at hchain
    simp only [mergeGo, if_neg (by omega : ¬ r.start_us ≤ cur.end_us)]
    rw [ih r hchain.2]

theorem mergeRanges_of_chain (l : List TimeRange)
    (h : List.Chain' (fun a b => a.end_us < b.start_us) l) :
    mergeRanges l = l := by
  cases l with
  | nil => rfl
  | cons r rs => exact mergeGo_of_chain rs r h

theorem normalize_chain (l : List TimeRange) (d : Nat) :
    List.Chain' (fun a b => a.end_us < b.start_us) (normalize_ranges l d) := by
  simp only [normalize_ranges]
  cases h : (List.filter (fun r => decide (r.start_us < r.end_us))
      (List.map (clampRange d) l)).insertionSort startLE with
  | nil => simp [mergeRanges]
  | cons r rs => exact mergeGo_chain rs r

theorem normalize_mem (l : List TimeRange) (d : Nat) :
    ∀ r ∈ normalize_ranges l d, r.start_us < r.end_us ∧ r.end_us ≤ d := by
  simp only [normalize_ranges]
  have hfiltered : ∀ x ∈ (List.filter (fun r => decide (r.start_us < r.end_us))
      (List.map (clampRange d) l)), x.start_us < x.end_us ∧ x.end_us ≤ d := by
    intro x hx
    rw [List.mem_filter] at hx
    obtain ⟨hmem, hp⟩ := hx
    rw [List.mem_map] at hmem
    obtain ⟨a, _, rfl⟩ := hmem
    refine ⟨of_decide_eq_true hp, ?_⟩
    simp [clampRange]
  have hsorted : ∀ x ∈ (List.filter (fun r => decide (r.start_us < r.end_us))
      (List.map (clampRange d) l)).insertionSort startLE,
      x.start_us < x.end_us ∧ x.end_us ≤ d := by
    intro x hx
    exact hfiltered x ((List.perm_insertionSort startLE _).mem_iff.mp hx)
  cases h : (List.filter (fun r => decide (r.start_us < r.end_us))
      (List.map (clampRange d) l)).insertionSort startLE with
  | nil => simp [mergeRanges]
  | cons r rs =>
    intro y hy
    rw [h] at hsorted
    exact mergeGo_mem rs r (hsorted r (List.mem_cons_self r rs))
      (fun x hx => hsorted x (List.mem_cons_of_mem r hx)) y hy

theorem chain_good_rel :
    ∀ (l : List TimeRange) (a : TimeRange),
      (∀ r ∈ l, r.start_us < r.end_us) →
      List.Chain (fun x y => x.end_us < y.start_us) a l →
      ∀ b ∈ l, a.end_us < b.start_us := by
  intro l
  induction l with
  | nil => intro a _ _ b hb; simp at hb
  | cons c cs ih =>
    intro a hgood hchain b hb
    rw [List.chain_cons] at hchain
    rcases List.mem_cons.mp hb with rfl | hb
    · exact hchain.1
    · have hc := hgood c (List.mem_cons_self c cs)
      have := ih c (fun r hr => hgood r (List.mem_cons_of_mem c hr)) hchain.2 b hb
      omega

theorem chain_good_pairwise (l : List TimeRange)
    (hgood : ∀ r ∈ l, r.start_us < r.end_us)
    (hchain : List.Chain' (fun a b => a.end_us < b.start_us) l) :
    List.Pairwise (fun a b => a.end_us < b.start_us) l := by
  induction l with
  | nil => exact List.Pairwise.nil
  | cons a t ih =>
    have hc : List.Chain (fun x y => x.end_us < y.start_us) a t := hchain
    refine List.Pairwise.cons ?_
      (ih (fun r hr => hgood r (List.mem_cons_of_mem a hr)) hchain.tail)
    exact chain_good_rel t a (fun r hr => hgood r (List.mem_cons_of_mem a hr)) hc

theorem normalize_of_normalized (d : Nat) (l : List TimeRange)
    (hmem : ∀ r ∈ l, r.start_us < r.end_us ∧ r.end_us ≤ d)
    (hchain : List.Chain' (fun a b => a.end_us < b.start_us) l) :
    normalize_ranges l d = l := by
  have hclamp : ∀ r ∈ l, clampRange d r = id r := by
    intro r hr
    obtain ⟨h1, h2⟩ := hmem r hr
    simp only [clampRange, id]
    have hs : min r.start_us d = r.start_us := by omega
    have he : min r.end_us d = r.end_us := by omega
    rw [hs, he]
  have hmap : l.map (clampRange d) = l :=
    (List.map_congr_left hclamp).trans (List.map_id l)
  have hfil : List.filter (fun r => decide (r.start_us < r.end_us)) l = l :=
    List.filter_eq_self.mpr (fun a ha => decide_eq_true (hmem a ha).1)
  have hpair : List.Pairwise startLE l := by
    refine (chain_good_pairwise l (fun r hr => (hmem r hr).1) hchain).imp_of_mem ?_
    intro a b ha _ hab
    have := (hmem a ha).1
    simp only [startLE]
    omega
  have hsort : l.insertionSort startLE = l := List.Sorted.insertionSort_eq hpair
  show mergeRanges (((l.map (clampRange d)).filter
      (fun r => decide (r.start_us < r.end_us))).insertionSort startLE) = l
  rw [hmap, hfil, hsort]
  exact mergeRanges_of_chain l hchain

/-- C3: range normalization is idempotent — normalizing an
already-normalized range list (with the same duration) returns it
unchanged. -/
theorem claim3_normalize_idempotent (ranges : List TimeRange) (duration_us : Nat) :
    normalize_ranges (normalize_ranges ranges duration_us) duration_us =
      normalize_ranges ranges duration_us :=
  normalize_of_normalized duration_us (normalize_ranges ranges duration_us)
    (normalize_mem ranges duration_us) (normalize_chain ranges duration_us)

/-! ## Properties of range inversion -/

theorem sumLen_cons (r : TimeRange) (l : List TimeRange) :
    sumLen (r :: l) = (r.end_us - r.start_us) + sumLen l := by
  simp [sumLen]

theorem sumLen_append (a b : List TimeRange) :
    sumLen (a ++ b) = sumLen a + sumLen b := by
  simp [sumLen]

theorem invertGo_start_ge :
    ∀ (l : List TimeRange) (d cursor : Nat) (k : TimeRange),
      k ∈ invertGo d cursor l → cursor ≤ k.start_us := by
  intro l
  induction l with
  | nil =>
    intro d cursor k hk
    simp only [invertGo] at hk
    split at hk
    · rcases List.mem_singleton.mp hk with rfl
      exact Nat.le_refl _
    · simp at hk
  | cons r rs ih =>
    intro d cursor k hk
    simp only [invertGo, List.mem_append] at hk
    rcases hk with hk | hk
    · split at hk
      · rcases List.mem_singleton.mp hk with rfl
        exact Nat.le_refl _
      · simp at hk
    · exact Nat.le_trans (Nat.le_max_right r.end_us cursor) (ih d (max r.end_us cursor) k hk)

theorem invertGo_good :
    ∀ (l : List TimeRange) (d cursor : Nat) (k : TimeRange),
      k ∈ invertGo d cursor l → k.start_us < k.end_us := by
  intro l
  induction l with
  | nil =>
    intro d cursor k hk
    simp only [invertGo] at hk
    split at hk
    · rcases List.mem_singleton.mp hk with rfl
      assumption
    · simp at hk
  | cons r rs ih =>
    intro d cursor k hk
    simp only [invertGo, List.mem_append] at hk
    rcases hk with hk | hk
    · split at hk
      · rcases List.mem_singleton.mp hk with rfl
        assumption
      · simp at hk
    · exact ih d (max r.end_us cursor) k hk

theorem invertGo_pairwise :
    ∀ (l : List TimeRange) (d cursor : Nat),
      (∀ r ∈ l, r.start_us ≤ r.end_us) →
      List.Pairwise (fun a b => a.end_us ≤ b.start_us) (invertGo d cursor l) := by
  intro l
  induction l with
  | nil =>
    intro d cursor _
    simp only [invertGo]
    split
    · exact List.pairwise_singleton _ _
    · exact List.Pairwise.nil
  | cons r rs ih =>
    intro d cursor hle
    have hr := hle r (List.mem_cons_self r rs)
    have hrs : ∀ x ∈ rs, x.start_us ≤ x.end_us :=
      fun x hx => hle x (List.mem_cons_of_mem r hx)
    simp only [invertGo]
    split
    · rw [List.singleton_append, List.pairwise_cons]
      refine ⟨?_, ih d (max r.end_us cursor) hrs⟩
      intro k hk
      have := invertGo_start_ge rs d (max r.end_us cursor) k hk
      simp only
      omega
    · rw [List.nil_append]
      exact ih d (max r.end_us cursor) hrs

theorem invertGo_sum (d : Nat) :
    ∀ (l : List TimeRange) (cursor : Nat),
      cursor ≤ d →
      (∀ r ∈ l, r.start_us < r.end_us ∧ r.end_us ≤ d) →
      List.Chain' (fun a b => a.end_us < b.start_us) l →
      (∀ h, l.head? = some h → cursor ≤ h.start_us) →
      sumLen (invertGo d cursor l) + sumLen l = d - cursor := by
  intro l
  induction l with
  | nil =>
    intro cursor hcd _ _ _
    simp only [invertGo]
    split
    · simp [sumLen]
    · simp only [sumLen, List.map_nil, List.sum_nil]
      omega
  | cons r rs ih =>
    intro cursor hcd hmem hchain hhead
    have hr := hmem r (List.mem_cons_self r rs)
    have hcr : cursor ≤ r.start_us := hhead r rfl
    have hmax : max r.end_us cursor = r.end_us := by omega
    have hchain' := List.chain'_cons'.mp hchain
    have hih := ih r.end_us hr.2
      (fun x hx => hmem x (List.mem_cons_of_mem r hx)) hchain'.2
      (fun h hh => Nat.le_of_lt (hchain'.1 h (by rw [hh]; rfl)))
    have hstep : invertGo d cursor (r :: rs) =
        (if cursor < r.start_us then [{ start_us := cursor, end_us := r.start_us }] else []) ++
          invertGo d r.end_us rs := by
      simp only [invertGo, hmax]
    rw [hstep, sumLen_append, sumLen_cons]
    by_cases hc : cursor < r.start_us
    · rw [if_pos hc]
      have h1 : sumLen [{ start_us := cursor, end_us := r.start_us }] =
          r.start_us - cursor := by
        simp [sumLen]
      rw [h1]
      omega
    · rw [if_neg hc]
      have h0 : sumLen ([] : List TimeRange) = 0 := rfl
      rw [h0]
      omega

theorem normalize_ranges_zero (l : List TimeRange) : normalize_ranges l 0 = [] := by
  have hfil : List.filter (fun r => decide (r.start_us < r.end_us))
      (List.map (clampRange 0) l) = [] := by
    rw [List.filter_eq_nil_iff]
    intro a ha
    rw [List.mem_map] at ha
    obtain ⟨b, _, rfl⟩ := ha
    simp [clampRange]
  show mergeRanges (((l.map (clampRange 0)).filter
      (fun r => decide (r.start_us < r.end_us))).insertionSort startLE) = []
  rw [hfil]
  rfl

/-- C4: for every duration `D` and remove list, the keep ranges
`invert_ranges (normalize_ranges remove D) D` are pairwise
non-overlapping and sorted strictly ascending, and their total length
plus the total length of the normalized remove ranges equals `D`. -/
theorem claim4_invert_partition (remove : List TimeRange) (d : Nat) :
    List.Pairwise (fun a b => a.end_us ≤ b.start_us)
      (invert_ranges (normalize_ranges remove d) d) ∧
    List.Pairwise (fun a b => a.start_us < b.start_us)
      (invert_ranges (normalize_ranges remove d) d) ∧
    sumLen (invert_ranges (normalize_ranges remove d) d) +
      sumLen (normalize_ranges remove d) = d := by
  by_cases hd : d = 0
  · subst hd
    rw [normalize_ranges_zero]
    simp [invert_ranges, sumLen]
  · have hmem := normalize_mem remove d
    have hchain := normalize_chain remove d
    have hgap : List.Pairwise (fun a b => a.end_us ≤ b.start_us)
        (invertGo d 0 (normalize_ranges remove d)) :=
      invertGo_pairwise (normalize_ranges remove d) d 0
        (fun r hr => Nat.le_of_lt (hmem r hr).1)
    have hsum := invertGo_sum d (normalize_ranges remove d) 0 (Nat.zero_le d) hmem hchain
      (fun _ _ => Nat.zero_le _)
    simp only [invert_ranges, if_neg hd]
    refine ⟨hgap, ?_, by simpa using hsum⟩
    refine hgap.imp_of_mem ?_
    intro a b ha _ hab
    have := invertGo_good (normalize_ranges remove d) d 0 a ha
    omega

/-! ## Empty remove list (C5) and version counter (C6) -/

/-- C5 counterexample: at `durationUs = 0` synthesis with an empty remove
list yields zero clips, not the single clip `[0, durationUs)` the claim
asserts for every `durationUs`. -/
theorem claim5_counterexample :
    (build_rough_cut_timeline "p" 0 30 "s" [] "t" "n").clips.length ≠ 1 := by
  decide

/-- C5 (amended): for every positive `durationUs`, synthesis with an
empty remove list yields exactly one clip spanning `[0, durationUs)` in
both timeline space and source space. -/
theorem claim5_empty_remove_single_clip (pid : String) (d fps : Nat) (src tid now : String)
    (hd : 0 < d) :
    (build_rough_cut_timeline pid d fps src [] tid now).clips =
      [{ clip_id := "clip-1", track_id := "track-video-main", clip_type := "source_clip",
         start_us := 0, end_us := d, source_start_us := 0, source_end_us := d,
         source_ref := src, meta := ⟨"ai-rough-cut", []⟩ }] := by
  have hne : d ≠ 0 := Nat.pos_iff_ne_zero.mp hd
  have hn : normalize_ranges [] d = [] := rfl
  have hk : invert_ranges (normalize_ranges [] d) d = [{ start_us := 0, end_us := d }] := by
    rw [hn]
    simp [invert_ranges, hne, invertGo, hd]
  show (buildClipsGo src (normalize_ranges [] d) "track-video-main" 0 0
      (invert_ranges (normalize_ranges [] d) d)).1 = _
  rw [hk, hn]
  simp only [buildClipsGo]
  simp only [Nat.sub_zero, Nat.zero_add]
  rfl

/-- C6 counterexample: a timeline whose `version` field is `u32::MAX`
saturates on save — the saved version is not `v + 1`. -/
theorem claim6_counterexample :
    (save_timeline { id := "t", project_id := "p", version := u32Max, status := "S",
                     fps := 30, duration_us := 0, created_at := "c", updated_at := "u",
                     tracks := [], clips := [] } "now").version ≠ u32Max + 1 := by
  decide

/-- C6 (amended): while the version stays below the `u32` saturation
bound, a successful save returns (and persists) `version + 1`, and two
successive saves yield `version + 2`. -/
theorem claim6_version_increment (t : Timeline) (now now' : String) :
    (t.version + 1 ≤ u32Max → (save_timeline t now).version = t.version + 1) ∧
    (t.version + 2 ≤ u32Max →
      (save_timeline (save_timeline t now) now').version = t.version + 2) := by
  constructor
  · intro h
    simp only [save_timeline]
    omega
  · intro h
    simp only [save_timeline]
    omega

/-- C6 witness: a concrete save at version 7 yields 8 and a second save
yields 9. -/
theorem claim6_witness :
    (save_timeline { id := "t", project_id := "p", version := 7, status := "S",
                     fps := 30, duration_us := 0, created_at := "c", updated_at := "u",
                     tracks := [], clips := [] } "n").version = 8 ∧
    (save_timeline (save_timeline { id := "t", project_id := "p", version := 7, status := "S",
                                    fps := 30, duration_us := 0, created_at := "c",
                                    updated_at := "u",
                                    tracks := [], clips := [] } "n") "m").version = 9 :=
  ⟨(claim6_version_increment { id := "t", project_id := "p", version := 7, status := "S",
                               fps := 30, duration_us := 0, created_at := "c",
                               updated_at := "u",
                               tracks := [], clips := [] } "n" "m").1 (by decide),
   (claim6_version_increment { id := "t", project_id := "p", version := 7, status := "S",
                               fps := 30, duration_us := 0, created_at := "c",
                               updated_at := "u",
                               tracks := [], clips := [] } "n" "m").2 (by decide)⟩

/-- C5 witness: the amended statement at `durationUs = 5`. -/
theorem claim5_witness :
    0 < 5 ∧
    (build_rough_cut_timeline "p" 5 30 "s" [] "t" "n").clips =
      [{ clip_id := "clip-1", track_id := "track-video-main", clip_type := "source_clip",
         start_us := 0, end_us := 5, source_start_us := 0, source_end_us := 5,
         source_ref := "s", meta := ⟨"ai-rough-cut", []⟩ }] :=
  ⟨by decide, claim5_empty_remove_single_clip "p" 5 30 "s" "t" "n" (by decide)⟩

/-! ## Project status updates and render failure (C7) -/

theorem setStatusGo_spec (pid st now : String) :
    ∀ l : List Project, (∃ p ∈ l, p.id = pid) →
      ∃ l', setStatusGo pid st now l = some l' ∧
        ∃ q, l'.find? (fun p => decide (p.id = pid)) = some q ∧
          q.status = st ∧ q.updated_at = now ∧ q.id = pid := by
  intro l
  induction l with
  | nil =>
    rintro ⟨p, hp, _⟩
    simp at hp
  | cons a t ih =>
    rintro ⟨p, hp, hpid⟩
    by_cases ha : a.id = pid
    · refine ⟨{ a with status := st, updated_at := now } :: t, ?_, ?_⟩
      · simp [setStatusGo, ha]
      · refine ⟨{ a with status := st, updated_at := now }, ?_, rfl, rfl, ha⟩
        rw [List.find?_cons_of_pos]
        simp [ha]
    · have hpt : p ∈ t := by
        rcases List.mem_cons.mp hp with rfl | h
        · exact absurd hpid ha
        · exact h
      obtain ⟨l', hl', q, hq, hst, hup, hqid⟩ := ih ⟨p, hpt, hpid⟩
      refine ⟨a :: l', ?_, q, ?_, hst, hup, hqid⟩
      · simp [setStatusGo, ha, hl']
      · rw [List.find?_cons_of_neg]
        · exact hq
        · simp [ha]

theorem update_project_status_spec (projects : List Project) (pid st now : String)
    (h : ∃ p ∈ projects, p.id = pid) :
    ∃ l', update_project_status projects pid st now = Except.ok l' ∧
      ∃ q, l'.find? (fun p => decide (p.id = pid)) = some q ∧
        q.status = st ∧ q.id = pid := by
  obtain ⟨l', hl', q, hq, hst, _, hqid⟩ := setStatusGo_spec pid st now projects h
  exact ⟨l', by simp [update_project_status, hl'], q, hq, hst, hqid⟩

/-- C7: on an existing project, when the render collaborator fails, the
command leaves the matching project record's status at `RENDER_FAILED`
in the persisted store and returns the collaborator's trimmed standard
error verbatim, not a synthesized error. -/
theorem claim7_render_failure {V : Type} (projects : List Project) (pid : String)
    (output : ProcOutput) (parse : String → Except String V) (nowStart nowEnd : String)
    (hexists : ∃ p ∈ projects, p.id = pid) (hfail : output.success = false) :
    (render_video projects pid output parse nowStart nowEnd).1 =
      Except.error (strTrim output.stderr) ∧
    ∃ q, (render_video projects pid output parse nowStart nowEnd).2.find?
        (fun p => decide (p.id = pid)) = some q ∧ q.status = "RENDER_FAILED" := by
  obtain ⟨s1, hs1, q1, hq1, _, hq1id⟩ :=
    update_project_status_spec projects pid "RENDER_IN_PROGRESS" nowStart hexists
  have hex1 : ∃ p ∈ s1, p.id = pid := ⟨q1, List.mem_of_find?_eq_some hq1, hq1id⟩
  obtain ⟨s2, hs2, q2, hq2, hq2st, _⟩ :=
    update_project_status_spec s1 pid "RENDER_FAILED" nowEnd hex1
  have hrun : run_node_script output = Except.error (strTrim output.stderr) := by
    simp [run_node_script, hfail]
  refine ⟨?_, ?_⟩
  · simp only [render_video, hs1, hrun, hs2]
  · simp only [render_video, hs1, hrun, hs2]
    exact ⟨q2, hq2, hq2st⟩

/-- C7 witness: a one-project store with a failing collaborator call. -/
theorem claim7_witness :
    (∃ p ∈ [sampleProject], p.id = "p") ∧
    ((render_video [sampleProject] "p" { success := false, stdout := "", stderr := " boom " }
        (fun s => Except.ok s) "1" "2").1 = Except.error (strTrim " boom ") ∧
      ∃ q, (render_video [sampleProject] "p"
          { success := false, stdout := "", stderr := " boom " }
          (fun s => Except.ok s) "1" "2").2.find?
          (fun p => decide (p.id = "p")) = some q ∧ q.status = "RENDER_FAILED") :=
  ⟨by decide,
   claim7_render_failure [sampleProject] "p"
     { success := false, stdout := "", stderr := " boom " }
     (fun s => Except.ok s) "1" "2" (by decide) rfl⟩

/-! ## Settings updates: not-found path (C8) and frame effect (C10) -/

theorem updateSettingsGo_none (pid : String) (s : ProjectSettings) (now : String) :
    ∀ l : List Project, (∀ p ∈ l, p.id ≠ pid) →
      updateSettingsGo pid s now l = none := by
  intro l
  induction l with
  | nil => intro _; rfl
  | cons a t ih =>
    intro h
    have ha : a.id ≠ pid := h a (List.mem_cons_self a t)
    simp [updateSettingsGo, ha, ih (fun p hp => h p (List.mem_cons_of_mem a hp))]

/-- C8: updating settings for a project id with no matching record fails
with the `Project not found.` error and performs no write — the store
file keeps its previous bytes. -/
theorem claim8_update_settings_notfound (projects : List Project) (pid : String)
    (settings : ProjectSettings) (now : String) (h : ∀ p ∈ projects, p.id ≠ pid) :
    update_project_settings projects pid settings now =
      (Except.error "Project not found.", none) := by
  simp [update_project_settings, updateSettingsGo_none pid settings now projects h]

/-- C8 witness: a store holding one project with a different id. -/
theorem claim8_witness :
    (∀ p ∈ [sampleProject], p.id ≠ "missing") ∧
    update_project_settings [sampleProject] "missing" sampleSettings "9" =
      (Except.error "Project not found.", none) :=
  ⟨by decide, claim8_update_settings_notfound [sampleProject] "missing" sampleSettings "9"
    (by decide)⟩

theorem updateSettingsGo_found (pid : String) (s : ProjectSettings) (now : String) :
    ∀ (l : List Project) (i : Nat) (p : Project),
      l[i]? = some p → p.id = pid → (∀ q ∈ l.take i, q.id ≠ pid) →
      ∃ l', updateSettingsGo pid s now l =
          some ({ p with settings := s, updated_at := now, status := "SETTINGS_SAVED" }, l') ∧
        l'.length = l.length ∧
        l'[i]? = some { p with settings := s, updated_at := now,
                               status := "SETTINGS_SAVED" } ∧
        ∀ j, j ≠ i → l'[j]? = l[j]? := by
  intro l
  induction l with
  | nil => intro i p hp; simp at hp
  | cons a t ih =>
    intro i p hp hpid htake
    cases i with
    | zero =>
      rw [List.getElem?_cons_zero] at hp
      cases hp
      refine ⟨{ a with settings := s, updated_at := now, status := "SETTINGS_SAVED" } :: t,
        ?_, by simp, by simp, ?_⟩
      · simp [updateSettingsGo, hpid]
      · intro j hj
        cases j with
        | zero => exact absurd rfl hj
        | succ m => simp [List.getElem?_cons_succ]
    | succ k =>
      have ha : a.id ≠ pid := by
        apply htake a
        rw [List.take_succ_cons]
        exact List.mem_cons_self a _
      rw [List.getElem?_cons_succ] at hp
      have htake' : ∀ q ∈ t.take k, q.id ≠ pid := by
        intro q hq
        apply htake q
        rw [List.take_succ_cons]
        exact List.mem_cons_of_mem a hq
      obtain ⟨t', ht', hlen, hti, htj⟩ := ih k p hp hpid htake'
      refine ⟨a :: t', ?_, by simp [hlen], ?_, ?_⟩
      · simp [updateSettingsGo, ha, ht']
      · rw [List.getElem?_cons_succ]
        exact hti
      · intro j hj
        cases j with
        | zero => simp
        | succ m =>
          rw [List.getElem?_cons_succ, List.getElem?_cons_succ]
          exact htj m (fun hmk => hj (by rw [hmk]))

/-- C10: on the first matching record, `update_project_settings`
replaces `settings` wholesale, overwrites `status` with
`SETTINGS_SAVED` regardless of its prior value, stamps `updatedAt`,
keeps `id`, `name` and `createdAt` (the record update below touches only
the three named fields), leaves every other record unchanged, and
returns the updated record. -/
theorem claim10_update_settings_frame (projects : List Project) (pid : String)
    (settings : ProjectSettings) (now : String) (i : Nat) (p : Project)
    (hp : projects[i]? = some p) (hpid : p.id = pid)
    (hfirst : ∀ q ∈ projects.take i, q.id ≠ pid) :
    (update_project_settings projects pid settings now).1 =
      Except.ok { p with settings := settings, updated_at := now,
                         status := "SETTINGS_SAVED" } ∧
    ∃ written, (update_project_settings projects pid settings now).2 = some written ∧
      written.length = projects.length ∧
      written[i]? = some { p with settings := settings, updated_at := now,
                                  status := "SETTINGS_SAVED" } ∧
      ∀ j, j ≠ i → written[j]? = projects[j]? := by
  obtain ⟨l', hl', hlen, hi, hj⟩ :=
    updateSettingsGo_found pid settings now projects i p hp hpid hfirst
  refine ⟨?_, ?_⟩
  · simp only [update_project_settings, hl']
  · simp only [update_project_settings, hl']
    exact ⟨l', rfl, hlen, hi, hj⟩

/-- C10 witness: a two-project store where the second record matches;
the record in front of it is untouched. -/
theorem claim10_witness :
    ([sampleProject2, sampleProject][1]? = some sampleProject) ∧
    sampleProject.id = "p" ∧
    (∀ q ∈ [sampleProject2, sampleProject].take 1, q.id ≠ "p") ∧
    ((update_project_settings [sampleProject2, sampleProject] "p" sampleSettings "9").1 =
      Except.ok { sampleProject with settings := sampleSettings, updated_at := "9",
                                     status := "SETTINGS_SAVED" } ∧
    ∃ written,
      (update_project_settings [sampleProject2, sampleProject] "p" sampleSettings "9").2 =
        some written ∧
      written.length = [sampleProject2, sampleProject].length ∧
      written[1]? = some { sampleProject with settings := sampleSettings,
                                               updated_at := "9",
                                               status := "SETTINGS_SAVED" } ∧
      ∀ j, j ≠ 1 → written[j]? = [sampleProject2, sampleProject][j]?) :=
  ⟨by decide, by decide, by decide,
   claim10_update_settings_frame [sampleProject2, sampleProject] "p" sampleSettings "9"
     1 sampleProject (by decide) (by decide) (by decide)⟩

/-! ## Telemetry reader (C9) -/

theorem filterMap_length_add_countP {α β : Type} (f : α → Option β) :
    ∀ l : List α,
      (l.filterMap f).length + l.countP (fun a => (f a).isNone) = l.length := by
  intro l
  induction l with
  | nil => simp
  | cons a t ih =>
    cases hf : f a with
    | none =>
      rw [List.filterMap_cons_none hf, List.countP_cons]
      simp [hf]
      omega
    | some b =>
      rw [List.filterMap_cons_some hf, List.countP_cons]
      simp [hf]
      omega

/-- C9 counterexample: a log holding one valid structured line (`1`) and
one malformed line (`x`), read with limit 1: the window of the last
`limit` lines is taken *before* parsing, so the malformed line consumes
the only slot and zero events are returned instead of the one valid
event the claim requires. -/
theorem claim9_counterexample :
    nonBlankLines "1\nx" = ["1", "x"] ∧
    parseNatLine "1" = some 1 ∧
    parseNatLine "x" = none ∧
    get_project_telemetry_recent parseNatLine "1\nx" (some 1) = [] := by
  refine ⟨by decide, by decide, by decide, by decide⟩

/-- C9 (amended): when the log's non-blank lines all fit within the
clamped limit and exactly one of them fails to parse, the read returns
exactly the parsed events of the valid lines, newest first, and never
fails. -/
theorem claim9_skip_malformed {J : Type} (parse : String → Option J) (raw : String)
    (limit : Option Nat)
    (hfit : (nonBlankLines raw).length ≤ effective_limit limit)
    (hone : (nonBlankLines raw).countP (fun l => (parse l).isNone) = 1) :
    get_project_telemetry_recent parse raw limit =
      ((nonBlankLines raw).filterMap parse).reverse ∧
    (get_project_telemetry_recent parse raw limit).length + 1 =
      (nonBlankLines raw).length := by
  have htake : ((nonBlankLines raw).reverse).take (effective_limit limit) =
      (nonBlankLines raw).reverse := List.take_of_length_le (by simpa using hfit)
  have heq : get_project_telemetry_recent parse raw limit =
      ((nonBlankLines raw).filterMap parse).reverse := by
    simp only [get_project_telemetry_recent, recent_events, htake, List.filterMap_reverse]
  refine ⟨heq, ?_⟩
  rw [heq, List.length_reverse]
  have := filterMap_length_add_countP parse (nonBlankLines raw)
  omega

/-- C9 witness: three lines with one malformed, default limit. -/
theorem claim9_witness :
    (nonBlankLines "1\nx\n2").length ≤ effective_limit none ∧
    (nonBlankLines "1\nx\n2").countP (fun l => (parseNatLine l).isNone) = 1 ∧
    (get_project_telemetry_recent parseNatLine "1\nx\n2" none =
      ((nonBlankLines "1\nx\n2").filterMap parseNatLine).reverse ∧
    (get_project_telemetry_recent parseNatLine "1\nx\n2" none).length + 1 =
      (nonBlankLines "1\nx\n2").length) :=
  ⟨by decide, by decide,
   claim9_skip_malformed parseNatLine "1\nx\n2" none (by decide) (by decide)⟩

/-- C2 witness: the invariants instantiated at a concrete synthesis
call. -/
theorem claim2_witness :
    (∀ c, (build_rough_cut_timeline "p" 10 30 "s" [⟨2, 4⟩] "t" "n").clips.head? = some c →
      c.start_us = 0) ∧
    List.Chain' (fun a b => b.start_us = a.end_us)
      (build_rough_cut_timeline "p" 10 30 "s" [⟨2, 4⟩] "t" "n").clips ∧
    (∀ c ∈ (build_rough_cut_timeline "p" 10 30 "s" [⟨2, 4⟩] "t" "n").clips,
      c.end_us - c.start_us = c.source_end_us - c.source_start_us) ∧
    (build_rough_cut_timeline "p" 10 30 "s" [⟨2, 4⟩] "t" "n").duration_us =
      ((build_rough_cut_timeline "p" 10 30 "s" [⟨2, 4⟩] "t" "n").clips.getLast?.map
        (fun c => c.end_us)).getD 0 :=
  claim2_timeline_invariants "p" 10 30 "s" [⟨2, 4⟩] "t" "n"
